import Mathlib

/-!
Verification of the `[Hand; 2]` USI hand-segment parser
(`shogi_usi_parser/src/hand.rs`).

The parser and its C wrapper are embedded shallowly:

* bytes are `Nat` (values below 256 in any real input);
* `parse_usi_slice` embeds `<[Hand; 2] as FromUsi>::parse_usi_slice`
  (hand.rs lines 33-102);
* `Hand_parse_usi_slice` embeds the C wrapper (hand.rs lines 113-126);
* a possible Rust panic (an out-of-bounds slice) is made explicit in the
  result type (`PResult.panicked`, and `none` for the inner loop).

The two collaborators living outside this file's source —
`Piece::parse_usi_slice` restricted to a one-byte slice, and
`shogi_core::Hand` with its `added` operation — are modelled from the
specification (see the doc comments marked "Modelled from the spec").
-/

/-- The seven piece kinds that can be held in hand
(the spec's closed set; king is never held in hand). -/
inductive PieceKind where
  | Pawn
  | Lance
  | Knight
  | Silver
  | Gold
  | Bishop
  | Rook
deriving DecidableEq, Repr

/-- The two sides ("black" = first player, "white" = second player). -/
inductive Color where
  | Black
  | White
deriving DecidableEq, Repr

/-- Modelled from the spec: the kind-specific maximum counts enforced by
`shogi_core::Hand` ("each count is bounded above by a kind-specific maximum
(e.g., 18 for Pawn, lower bounds for others)"); the standard shogi material
maxima. -/
def maxCount : PieceKind → Nat
  | .Pawn => 18
  | .Lance => 4
  | .Knight => 4
  | .Silver => 4
  | .Gold => 4
  | .Bishop => 2
  | .Rook => 2

/-- Modelled from the spec: `shogi_core::Hand`, "a per-side mapping from
piece kind to a non-negative integer count". -/
structure Hand where
  pawn : Nat
  lance : Nat
  knight : Nat
  silver : Nat
  gold : Nat
  bishop : Nat
  rook : Nat
deriving DecidableEq, Repr

/-- Modelled from the spec: `Hand::default()`, "a freshly constructed Hand
has all counts at zero". -/
def Hand.default : Hand := ⟨0, 0, 0, 0, 0, 0, 0⟩

/-- The count stored for one piece kind. -/
def Hand.count : Hand → PieceKind → Nat
  | h, .Pawn => h.pawn
  | h, .Lance => h.lance
  | h, .Knight => h.knight
  | h, .Silver => h.silver
  | h, .Gold => h.gold
  | h, .Bishop => h.bishop
  | h, .Rook => h.rook

/-- Replace the count stored for one piece kind. -/
def Hand.setCount : Hand → PieceKind → Nat → Hand
  | h, .Pawn, v => { h with pawn := v }
  | h, .Lance, v => { h with lance := v }
  | h, .Knight, v => { h with knight := v }
  | h, .Silver, v => { h with silver := v }
  | h, .Gold, v => { h with gold := v }
  | h, .Bishop, v => { h with bishop := v }
  | h, .Rook, v => { h with rook := v }

/-- Modelled from the spec: `Hand::added`, "attempting to add beyond the
maximum is a no-op that signals failure to the caller of the single-add
operation" — one unit is added, `none` when the kind is at its maximum. -/
def Hand.added (h : Hand) (k : PieceKind) : Option Hand :=
  if h.count k < maxCount k then some (h.setCount k (h.count k + 1)) else none

/-- Modelled from the spec: the single-byte piece decoder
(`Piece::parse_usi_slice` on a one-byte slice): "a single-byte-token piece
decoder that, given a 1-byte slice, returns either a (piece kind, side) pair
or a decode failure", with "case and identity of the letter jointly encoding
piece kind and side".  Upper-case letters are the first player (black),
lower-case the second (white). -/
def pieceOfByte (b : Nat) : Option (PieceKind × Color) :=
  if b = 80 then some (.Pawn, .Black)      -- 'P'
  else if b = 76 then some (.Lance, .Black)  -- 'L'
  else if b = 78 then some (.Knight, .Black) -- 'N'
  else if b = 83 then some (.Silver, .Black) -- 'S'
  else if b = 71 then some (.Gold, .Black)   -- 'G'
  else if b = 66 then some (.Bishop, .Black) -- 'B'
  else if b = 82 then some (.Rook, .Black)   -- 'R'
  else if b = 112 then some (.Pawn, .White)  -- 'p'
  else if b = 108 then some (.Lance, .White) -- 'l'
  else if b = 110 then some (.Knight, .White) -- 'n'
  else if b = 115 then some (.Silver, .White) -- 's'
  else if b = 103 then some (.Gold, .White)  -- 'g'
  else if b = 98 then some (.Bishop, .White) -- 'b'
  else if b = 114 then some (.Rook, .White)  -- 'r'
  else none

/-- hand.rs line 53: `matches!(s[index], b'0'..=b'9')`. -/
def isDigit (b : Nat) : Bool := decide (48 ≤ b ∧ b ≤ 57)

/-- hand.rs lines 51-63: the optional 1-2 digit count prefix read at the
current scan position.  Returns `(count, count_len)`: `count` defaults to
`1` when no digit is present; with digits `d0` (and greedily `d1`) it is
their decimal value. -/
def countOf (s : List Nat) : Nat × Nat :=
  match s with
  | [] => (1, 0)
  | b0 :: rest =>
    if isDigit b0 then
      match rest with
      | b1 :: _ => if isDigit b1 then (10 * (b0 - 48) + (b1 - 48), 2) else (b0 - 48, 1)
      | [] => (b0 - 48, 1)
    else (1, 0)

/-- hand.rs lines 51-63 again, but with the byte arithmetic performed in
wrapping 8-bit arithmetic exactly as `u8` evaluates it: every subtraction is
`(a + 256 - b) % 256` and every product/sum is reduced `% 256`. -/
def countOfU8 (s : List Nat) : Nat × Nat :=
  match s with
  | [] => (1, 0)
  | b0 :: rest =>
    if isDigit b0 then
      match rest with
      | b1 :: _ =>
        if isDigit b1 then
          (((10 * ((b0 + 256 - 48) % 256)) % 256 + (b1 + 256 - 48) % 256) % 256, 2)
        else ((b0 + 256 - 48) % 256, 1)
      | [] => ((b0 + 256 - 48) % 256, 1)
    else (1, 0)

/-- hand.rs lines 73-79 / 82-88: `for _ in 0..count { hand = if let
Some(newhand) = hand.added(kind) { newhand } else { break } }`. -/
def Hand.addLoop (h : Hand) (k : PieceKind) : Nat → Hand
  | 0 => h
  | n + 1 =>
    match h.added k with
    | some h2 => h2.addLoop k n
    | none => h

/-- hand.rs lines 71-90: dispatch on the decoded piece's color, adding
`count` units to `hand[0]` (black) or `hand[1]` (white). -/
def addUnits (hp : Hand × Hand) (col : Color) (k : PieceKind) (count : Nat) : Hand × Hand :=
  match col with
  | .Black => (hp.1.addLoop k count, hp.2)
  | .White => (hp.1, hp.2.addLoop k count)

/-- The structured error of the crate: `Error::InvalidInput { from, to,
description }`. -/
structure Error where
  from_ : Nat
  to_ : Nat
  description : String
deriving DecidableEq, Repr

/-- Outcome of running a Rust function that may panic. -/
inductive PResult (α : Type) where
  | panicked
  | err (e : Error)
  | ok (val : α)
deriving DecidableEq, Repr

/-- hand.rs lines 50-92: the token loop (`while index < s.len()`), run on
the suffix of the input starting at the current `index`.  Returns
`some (consumed, hands)` when the loop exits normally (`consumed` is how far
`index` advanced), and `none` when line 64's slice
`&s[index + count_len..index + count_len + 1]` is out of bounds — in Rust
that indexing panics.  The branch structure below is the `countOf`
computation (lines 51-63) inlined so that the recursion is structural:

* head byte not a digit: `count = 1`, `count_len = 0`, decode the head;
* one digit then end of input: `count_len = 1`, the slice `[1..2]` relative
  to the position is out of bounds — panic;
* one digit then a non-digit: `count_len = 1`, decode the second byte;
* two digits then end of input: `count_len = 2`, slice out of bounds — panic;
* two digits then another byte: `count_len = 2`, decode the third byte.

A decode failure breaks the loop (line 68) consuming nothing further;
a decode success adds `count` units (lines 70-90) and advances by
`count_len + 1` (line 91). -/
def parseLoop : List Nat → Hand × Hand → Option (Nat × (Hand × Hand))
  | [], hp => some (0, hp)
  | b0 :: rest, hp =>
    if isDigit b0 then
      match rest with
      | [] => none
      | b1 :: rest2 =>
        if isDigit b1 then
          match rest2 with
          | [] => none
          | b2 :: rest3 =>
            match pieceOfByte b2 with
            | none => some (0, hp)
            | some (k, col) =>
              match parseLoop rest3 (addUnits hp col k (10 * (b0 - 48) + (b1 - 48))) with
              | none => none
              | some (m, hp2) => some (3 + m, hp2)
        else
          match pieceOfByte b1 with
          | none => some (0, hp)
          | some (k, col) =>
            match parseLoop rest2 (addUnits hp col k (b0 - 48)) with
            | none => none
            | some (m, hp2) => some (2 + m, hp2)
    else
      match pieceOfByte b0 with
      | none => some (0, hp)
      | some (k, col) =>
        match parseLoop rest (addUnits hp col k 1) with
        | none => none
        | some (m, hp2) => some (1 + m, hp2)

/-- hand.rs lines 33-102: `<[Hand; 2] as FromUsi>::parse_usi_slice`.
Empty input errors with range `[0, 0)` (lines 34-40); a leading `'-'`
(byte 45) returns two default hands and the rest of the input (lines
41-44); otherwise the token loop runs and `index == 0` errors with range
`[0, 1)` (lines 93-100), else the suffix from `index` and the accumulated
hands are returned (line 101). -/
def parse_usi_slice (s : List Nat) : PResult (List Nat × (Hand × Hand)) :=
  match s with
  | [] => .err ⟨0, 0, "A `[Hand; 2]` expected, but nothing found"⟩
  | b :: rest =>
    if b = 45 then .ok (rest, (Hand.default, Hand.default))
    else
      match parseLoop (b :: rest) (Hand.default, Hand.default) with
      | none => .panicked
      | some (index, hp) =>
        if index = 0 then .err ⟨0, 1, "A `[Hand; 2]` expected, but no pieces were found"⟩
        else .ok ((b :: rest).drop index, hp)

/-- hand.rs lines 114-117: the wrapper's nul scan — the bytes of the C
string strictly before the first nul byte. -/
def cstrBytes (s : List Nat) : List Nat := s.takeWhile (fun b => b != 0)

/-- hand.rs lines 113-126: `Hand_parse_usi_slice`.  The first argument is
the caller's output buffer `hand: &mut [Hand; 2]`; the result is `none`
when the inner parser panics, and otherwise `some (ret, buffer)` with the
returned `isize` and the buffer contents after the call.  On success the
return value is the pointer offset `slice.as_ptr().offset_from(s)`, i.e.
the number of consumed bytes, written here as the length difference between
the scanned slice and the returned remainder. -/
def Hand_parse_usi_slice (hand : Hand × Hand) (s : List Nat) : Option (Int × (Hand × Hand)) :=
  match parse_usi_slice (cstrBytes s) with
  | .panicked => none
  | .ok (rem, hp) => some (((cstrBytes s).length - rem.length : Nat), hp)
  | .err _ => some (-1, hand)

theorem Hand.count_setCount_self (h : Hand) (k : PieceKind) (v : Nat) :
    (h.setCount k v).count k = v := by
  cases k <;> rfl

theorem Hand.count_setCount_ne (h : Hand) {k k' : PieceKind} (hne : k' ≠ k) (v : Nat) :
    (h.setCount k v).count k' = h.count k' := by
  cases k <;> cases k' <;> first | exact absurd rfl hne | rfl

theorem Hand.setCount_setCount (h : Hand) (k : PieceKind) (v w : Nat) :
    (h.setCount k v).setCount k w = h.setCount k w := by
  cases k <;> rfl

theorem Hand.setCount_comm (h : Hand) {k k' : PieceKind} (hne : k ≠ k') (v w : Nat) :
    (h.setCount k v).setCount k' w = (h.setCount k' w).setCount k v := by
  cases k <;> cases k' <;> first | exact absurd rfl hne | rfl

theorem Hand.setCount_count_self (h : Hand) (k : PieceKind) :
    h.setCount k (h.count k) = h := by
  cases k <;> rfl

theorem Hand.addLoop_zero (h : Hand) (k : PieceKind) : h.addLoop k 0 = h := rfl

theorem Hand.addLoop_succ (h : Hand) (k : PieceKind) (n : Nat) :
    h.addLoop k (n + 1) =
      match h.added k with
      | some h2 => h2.addLoop k n
      | none => h := rfl

/-- Closed form of the unit-adding loop: the count of `k` saturates at
`maxCount k` (and a count already above the maximum is left untouched,
since the very first `added` fails). -/
theorem Hand.addLoop_char (h : Hand) (k : PieceKind) (n : Nat) :
    h.addLoop k n =
      h.setCount k
        (if maxCount k ≤ h.count k then h.count k
         else min (h.count k + n) (maxCount k)) := by
  induction n generalizing h with
  | zero =>
    have hv : (if maxCount k ≤ h.count k then h.count k
        else min (h.count k + 0) (maxCount k)) = h.count k := by
      split <;> omega
    rw [Hand.addLoop_zero, hv, Hand.setCount_count_self]
  | succ n ih =>
    rw [Hand.addLoop_succ]
    by_cases hc : h.count k < maxCount k
    · have hadd : h.added k = some (h.setCount k (h.count k + 1)) := by
        unfold Hand.added
        rw [if_pos hc]
      rw [hadd]
      show (h.setCount k (h.count k + 1)).addLoop k n = _
      rw [ih, Hand.count_setCount_self, Hand.setCount_setCount]
      congr 1
      split_ifs <;> omega
    · have hadd : h.added k = none := by
        unfold Hand.added
        rw [if_neg hc]
      rw [hadd]
      show h = _
      have hv : (if maxCount k ≤ h.count k then h.count k
          else min (h.count k + (n + 1)) (maxCount k)) = h.count k := by
        split <;> omega
      rw [hv, Hand.setCount_count_self]

theorem Hand.addLoop_count (h : Hand) (k : PieceKind) (n : Nat) :
    (h.addLoop k n).count k =
      if maxCount k ≤ h.count k then h.count k
      else min (h.count k + n) (maxCount k) := by
  rw [Hand.addLoop_char, Hand.count_setCount_self]

theorem Hand.addLoop_count_ne (h : Hand) {k k' : PieceKind} (hne : k' ≠ k) (n : Nat) :
    (h.addLoop k n).count k' = h.count k' := by
  rw [Hand.addLoop_char, Hand.count_setCount_ne h hne]

/-- Two unit-adding loops on the same hand commute. -/
theorem Hand.addLoop_comm (h : Hand) (k1 k2 : PieceKind) (n1 n2 : Nat) :
    (h.addLoop k1 n1).addLoop k2 n2 = (h.addLoop k2 n2).addLoop k1 n1 := by
  by_cases hk : k1 = k2
  · subst hk
    rw [Hand.addLoop_char h, Hand.addLoop_char h,
      Hand.addLoop_char (h.setCount k1 _), Hand.addLoop_char (h.setCount k1 _),
      Hand.count_setCount_self, Hand.count_setCount_self,
      Hand.setCount_setCount, Hand.setCount_setCount]
    congr 1
    split_ifs <;> omega
  · rw [Hand.addLoop_char h k1, Hand.addLoop_char h k2,
      Hand.addLoop_char (h.setCount k1 _), Hand.addLoop_char (h.setCount k2 _),
      Hand.count_setCount_ne h (Ne.symm hk), Hand.count_setCount_ne h hk,
      Hand.setCount_comm h hk]


/-- A digit byte is rejected by the piece decoder. -/
theorem pieceOfByte_digit {b : Nat} (hd : isDigit b = true) : pieceOfByte b = none := by
  simp only [isDigit, decide_eq_true_eq] at hd
  obtain ⟨h1, h2⟩ := hd
  interval_cases b <;> rfl

/-- A byte accepted by the piece decoder is neither an ASCII digit nor the
empty-hand marker byte 45. -/
theorem pieceOfByte_byte_facts {b : Nat} {p : PieceKind × Color}
    (h : pieceOfByte b = some p) : isDigit b = false ∧ b ≠ 45 := by
  constructor
  · by_cases hd : isDigit b
    · rw [pieceOfByte_digit hd] at h
      exact Option.noConfusion h
    · simpa using hd
  · rintro rfl
    rw [show pieceOfByte 45 = none from rfl] at h
    exact Option.noConfusion h

/-- One iteration of the token loop, phrased through `countOf`: when the
byte right after the digit run decodes and is in bounds, the loop consumes
`count_len + 1` bytes, adds the units, and continues on the rest of the
input — regardless of whether the additions saturated. -/
theorem parseLoop_step (s : List Nat) (hp : Hand × Hand) (k : PieceKind) (col : Color)
    (hdec : pieceOfByte (s.getD (countOf s).2 0) = some (k, col))
    (hlen : (countOf s).2 + 1 ≤ s.length) :
    parseLoop s hp =
      match parseLoop (s.drop ((countOf s).2 + 1)) (addUnits hp col k (countOf s).1) with
      | none => none
      | some (m, hp2) => some ((countOf s).2 + 1 + m, hp2) := by
  match s with
  | [] => simp at hlen
  | b0 :: rest =>
    by_cases hd0 : isDigit b0
    · match rest with
      | [] =>
        have hc : countOf [b0] = (b0 - 48, 1) := by simp [countOf, hd0]
        rw [hc] at hlen
        simp at hlen
      | b1 :: rest2 =>
        by_cases hd1 : isDigit b1
        · match rest2 with
          | [] =>
            have hc : countOf [b0, b1] = (10 * (b0 - 48) + (b1 - 48), 2) := by
              simp [countOf, hd0, hd1]
            rw [hc] at hlen
            simp at hlen
          | b2 :: rest3 =>
            have hc : countOf (b0 :: b1 :: b2 :: rest3) = (10 * (b0 - 48) + (b1 - 48), 2) := by
              simp [countOf, hd0, hd1]
            rw [hc] at hdec ⊢
            simp only [List.getD_cons_succ, List.getD_cons_zero, List.drop_succ_cons,
              List.drop_zero] at hdec ⊢
            rw [parseLoop.eq_def]
            try dsimp only
            rw [if_pos hd0]
            try dsimp only
            rw [if_pos hd1]
            try dsimp only
            rw [hdec]
        · have hc : countOf (b0 :: b1 :: rest2) = (b0 - 48, 1) := by
            simp [countOf, hd0, hd1]
          rw [hc] at hdec ⊢
          simp only [List.getD_cons_succ, List.getD_cons_zero, List.drop_succ_cons,
            List.drop_zero] at hdec ⊢
          rw [parseLoop.eq_def]
          try dsimp only
          rw [if_pos hd0]
          try dsimp only
          rw [if_neg hd1]
          try dsimp only
          rw [hdec]
    · have hc : countOf (b0 :: rest) = (1, 0) := by simp [countOf, hd0]
      rw [hc] at hdec ⊢
      simp only [List.getD_cons_zero, List.drop_succ_cons, List.drop_zero] at hdec ⊢
      rw [parseLoop.eq_def]
      try dsimp only
      rw [if_neg hd0]
      try dsimp only
      rw [hdec]

/-- The token loop never consumes more bytes than the input has. -/
theorem parseLoop_le (s : List Nat) (hp : Hand × Hand) (m : Nat) (hp2 : Hand × Hand)
    (h : parseLoop s hp = some (m, hp2)) : m ≤ s.length := by
  induction s, hp using parseLoop.induct generalizing m hp2 with
  | case1 hp =>
    rw [parseLoop] at h
    cases h
    simp
  | case2 b0 hp hd0 =>
    rw [parseLoop.eq_def] at h
    try dsimp only at h
    rw [if_pos hd0] at h
    exact Option.noConfusion h
  | case3 b0 hp hd0 b1 hd1 =>
    rw [parseLoop.eq_def] at h
    try dsimp only at h
    rw [if_pos hd0] at h
    try dsimp only at h
    rw [if_pos hd1] at h
    exact Option.noConfusion h
  | case4 b0 hp hd0 b1 hd1 b2 rest3 hpb =>
    rw [parseLoop.eq_def] at h
    try dsimp only at h
    rw [if_pos hd0] at h
    try dsimp only at h
    rw [if_pos hd1] at h
    try dsimp only at h
    rw [hpb] at h
    cases h
    simp
  | case5 b0 hp hd0 b1 hd1 b2 rest3 k col hpb hrec ih =>
    rw [parseLoop.eq_def] at h
    try dsimp only at h
    rw [if_pos hd0] at h
    try dsimp only at h
    rw [if_pos hd1] at h
    try dsimp only at h
    rw [hpb] at h
    try dsimp only at h
    rw [hrec] at h
    exact Option.noConfusion h
  | case6 b0 hp hd0 b1 hd1 b2 rest3 k col hpb m2 hp2b hrec ih =>
    rw [parseLoop.eq_def] at h
    try dsimp only at h
    rw [if_pos hd0] at h
    try dsimp only at h
    rw [if_pos hd1] at h
    try dsimp only at h
    rw [hpb] at h
    try dsimp only at h
    rw [hrec] at h
    cases h
    have := ih m2 hp2b hrec
    simp only [List.length_cons]
    omega
  | case7 b0 hp hd0 b1 rest2 hd1 hpb =>
    rw [parseLoop.eq_def] at h
    try dsimp only at h
    rw [if_pos hd0] at h
    try dsimp only at h
    rw [if_neg hd1] at h
    try dsimp only at h
    rw [hpb] at h
    cases h
    simp
  | case8 b0 hp hd0 b1 rest2 hd1 k col hpb hrec ih =>
    rw [parseLoop.eq_def] at h
    try dsimp only at h
    rw [if_pos hd0] at h
    try dsimp only at h
    rw [if_neg hd1] at h
    try dsimp only at h
    rw [hpb] at h
    try dsimp only at h
    rw [hrec] at h
    exact Option.noConfusion h
  | case9 b0 hp hd0 b1 rest2 hd1 k col hpb m2 hp2b hrec ih =>
    rw [parseLoop.eq_def] at h
    try dsimp only at h
    rw [if_pos hd0] at h
    try dsimp only at h
    rw [if_neg hd1] at h
    try dsimp only at h
    rw [hpb] at h
    try dsimp only at h
    rw [hrec] at h
    cases h
    have := ih m2 hp2b hrec
    simp only [List.length_cons]
    omega
  | case10 b0 rest hp hd0 hpb =>
    rw [parseLoop.eq_def] at h
    try dsimp only at h
    rw [if_neg hd0] at h
    try dsimp only at h
    rw [hpb] at h
    cases h
    simp
  | case11 b0 rest hp hd0 k col hpb hrec ih =>
    rw [parseLoop.eq_def] at h
    try dsimp only at h
    rw [if_neg hd0] at h
    try dsimp only at h
    rw [hpb] at h
    try dsimp only at h
    rw [hrec] at h
    exact Option.noConfusion h
  | case12 b0 rest hp hd0 k col hpb m2 hp2b hrec ih =>
    rw [parseLoop.eq_def] at h
    try dsimp only at h
    rw [if_neg hd0] at h
    try dsimp only at h
    rw [hpb] at h
    try dsimp only at h
    rw [hrec] at h
    cases h
    have := ih m2 hp2b hrec
    simp only [List.length_cons]
    omega

/-- Adding zero units changes nothing. -/
theorem addUnits_zero (hp : Hand × Hand) (col : Color) (k : PieceKind) :
    addUnits hp col k 0 = hp := by
  cases col <;> rfl

/-- Shape of a successful parse: the remainder is a suffix of the input at
some consumed index. -/
theorem parse_ok_shape (s rem : List Nat) (hp : Hand × Hand)
    (h : parse_usi_slice s = .ok (rem, hp)) :
    ∃ idx, idx ≤ s.length ∧ rem = s.drop idx := by
  match s with
  | [] =>
    rw [parse_usi_slice] at h
    exact PResult.noConfusion h
  | b :: rest =>
    rw [parse_usi_slice.eq_def] at h
    dsimp only at h
    by_cases hb : b = 45
    · rw [if_pos hb] at h
      cases h
      exact ⟨1, by simp, rfl⟩
    · rw [if_neg hb] at h
      cases hloop : parseLoop (b :: rest) (Hand.default, Hand.default) with
      | none =>
        rw [hloop] at h
        exact PResult.noConfusion h
      | some p =>
        obtain ⟨index, hp2⟩ := p
        rw [hloop] at h
        dsimp only at h
        by_cases hidx : index = 0
        · rw [if_pos hidx] at h
          exact PResult.noConfusion h
        · rw [if_neg hidx] at h
          cases h
          exact ⟨index, parseLoop_le _ _ _ _ hloop, rfl⟩

/-- Claim C1 (code_bug evidence): the spec says that when no byte exists
after the digit prefix the loop stops and the parser returns normally,
never panicking; but on the input "5" (byte 53) the code evaluates
`&s[1..2]` on a slice of length 1 and panics. -/
theorem C1_trailing_digit_panics : parse_usi_slice [53] = .panicked := by decide

/-- Claim C2 (counterexample): the spec says `-` is the only representation
of an empty hand pair and inputs whose tokens sum to zero are not valid;
but the input "0P" (bytes 48, 80) does not start with `-`, its single token
has count zero, and the parser accepts it, returning the empty hand pair
with the whole input consumed. -/
theorem C2_zero_token_accepted_counterexample :
    parse_usi_slice [48, 80] = .ok ([], (Hand.default, Hand.default)) := by decide

/-- Claim C2 (amended): a zero-count token `0X`, for any decodable piece
letter `X`, is accepted by `parse_usi_slice` and yields the empty hand
pair — so `-` is not the only input accepted as an empty hand pair; an
error is raised only when no token bytes are consumed at all. -/
theorem C2_zero_token_accepted (b : Nat) (k : PieceKind) (col : Color)
    (hdec : pieceOfByte b = some (k, col)) :
    parse_usi_slice [48, b] = .ok ([], (Hand.default, Hand.default)) := by
  obtain ⟨hd, _⟩ := pieceOfByte_byte_facts hdec
  have hc : countOf [48, b] = (0, 1) := by
    simp [countOf, hd, show isDigit 48 = true from rfl]
  have hstep := parseLoop_step [48, b] (Hand.default, Hand.default) k col
    (by rw [hc]; simpa using hdec) (by rw [hc]; simp)
  rw [hc] at hstep
  simp only [List.drop_succ_cons, List.drop_zero] at hstep
  norm_num at hstep
  rw [parseLoop] at hstep
  rw [addUnits_zero] at hstep
  rw [parse_usi_slice.eq_def]
  dsimp only
  rw [if_neg (by decide)]
  rw [hstep]
  simp

/-- Claim C2 witness: the amended theorem applied at the concrete byte
80 ('P'). -/
theorem C2_zero_token_accepted_witness :
    parse_usi_slice [48, 80] = .ok ([], (Hand.default, Hand.default)) :=
  C2_zero_token_accepted 80 .Pawn .Black (by decide)

/-- Claim C3 (code_bug evidence): the spec's error dichotomy says that any
non-empty input not starting with `-` that consumes at least one token byte
yields a success value; but on "P7" (bytes 80, 55) the code consumes the
token `P` and then panics on the trailing digit instead of returning
success with remainder "7". -/
theorem C3_error_dichotomy_broken_by_panic : parse_usi_slice [80, 55] = .panicked := by
  decide

/-- Claim C6: any input whose first byte is `-` (45) parses successfully
and immediately: the result is two all-zero hands and the remainder is the
input without its first byte, whatever the following bytes are. -/
theorem C6_dash_empty_hands (s : List Nat) :
    parse_usi_slice (45 :: s) = .ok (s, (Hand.default, Hand.default)) := rfl

/-- Claim C9: the count prefix is parsed greedily — two digits if two are
present, else one digit, else a default count of 1 — and the concrete
input "18p" (bytes 49, 56, 112) parses to 18 pawns in the white (side 1)
hand with the whole input consumed. -/
theorem C9_greedy_count :
    (∀ b0 b1 : Nat, ∀ rest : List Nat, isDigit b0 = true → isDigit b1 = true →
        countOf (b0 :: b1 :: rest) = (10 * (b0 - 48) + (b1 - 48), 2))
    ∧ (∀ b0 b1 : Nat, ∀ rest : List Nat, isDigit b0 = true → isDigit b1 = false →
        countOf (b0 :: b1 :: rest) = (b0 - 48, 1))
    ∧ (∀ b0 : Nat, isDigit b0 = true → countOf [b0] = (b0 - 48, 1))
    ∧ (∀ b0 : Nat, ∀ rest : List Nat, isDigit b0 = false →
        countOf (b0 :: rest) = (1, 0))
    ∧ parse_usi_slice [49, 56, 112] =
        .ok ([], (Hand.default, ⟨18, 0, 0, 0, 0, 0, 0⟩)) := by
  refine ⟨?_, ?_, ?_, ?_, by decide⟩
  · intro b0 b1 rest h0 h1
    simp [countOf, h0, h1]
  · intro b0 b1 rest h0 h1
    simp [countOf, h0, h1]
  · intro b0 h0
    simp [countOf, h0]
  · intro b0 rest h0
    simp [countOf, h0]

/-- Claim C9 witness: the greedy-count theorem applied at concrete digit
bytes ("18", "1x", "1", "x"). -/
theorem C9_greedy_count_witness :
    countOf [49, 56, 112] = (18, 2)
    ∧ countOf [49, 120] = (1, 1)
    ∧ countOf [49] = (1, 1)
    ∧ countOf [120] = (1, 0) :=
  ⟨C9_greedy_count.1 49 56 [112] (by decide) (by decide),
   C9_greedy_count.2.1 49 120 [] (by decide) (by decide),
   C9_greedy_count.2.2.1 49 (by decide),
   C9_greedy_count.2.2.2.1 120 [] (by decide)⟩

/-- Claim C10: the count-prefix computation is exact in 8-bit arithmetic —
performing every operation of lines 55-57 with `u8` wrapping gives the same
pair as the ideal computation, and the resulting count is at most 99 (so
`10 * this + digit` never wraps). -/
theorem C10_count_exact_in_u8 (s : List Nat) :
    countOfU8 s = countOf s ∧ (countOf s).1 ≤ 99 := by
  match s with
  | [] => exact ⟨rfl, by decide⟩
  | [b0] =>
    by_cases hd0 : isDigit b0
    · have hb := hd0
      simp only [isDigit, decide_eq_true_eq] at hb
      refine ⟨?_, ?_⟩ <;> simp [countOf, countOfU8, hd0] <;> omega
    · simp [countOf, countOfU8, hd0]
  | b0 :: b1 :: rest =>
    by_cases hd0 : isDigit b0
    · have hb0 := hd0
      simp only [isDigit, decide_eq_true_eq] at hb0
      by_cases hd1 : isDigit b1
      · have hb1 := hd1
        simp only [isDigit, decide_eq_true_eq] at hb1
        refine ⟨?_, ?_⟩ <;> simp [countOf, countOfU8, hd0, hd1] <;> omega
      · refine ⟨?_, ?_⟩ <;> simp [countOf, countOfU8, hd0, hd1] <;> omega
    · simp [countOf, countOfU8, hd0]

/-- Claim C4: for every nul-terminated input, whenever the safe parser
succeeds on the bytes before the nul, the wrapper returns exactly the
number of consumed bytes (a non-negative count from the start of the input
to the first unconsumed byte, as witnessed by the remainder being the
drop of that count) together with the parsed hands; whenever the safe
parser fails, the wrapper returns -1; and the wrapper returns -1 only when
the safe parser fails. -/
theorem C4_wrapper_matches_safe_variant (cstr : List Nat) (buf : Hand × Hand) :
    (∀ rem hp, parse_usi_slice (cstrBytes cstr) = .ok (rem, hp) →
        Hand_parse_usi_slice buf cstr =
          some ((((cstrBytes cstr).length - rem.length : Nat) : Int), hp)
        ∧ rem = (cstrBytes cstr).drop ((cstrBytes cstr).length - rem.length))
    ∧ (∀ e, parse_usi_slice (cstrBytes cstr) = .err e →
        Hand_parse_usi_slice buf cstr = some (-1, buf))
    ∧ (∀ r hp2, Hand_parse_usi_slice buf cstr = some (r, hp2) → r = -1 →
        ∃ e, parse_usi_slice (cstrBytes cstr) = .err e) := by
  refine ⟨?_, ?_, ?_⟩
  · intro rem hp hok
    constructor
    · unfold Hand_parse_usi_slice
      rw [hok]
    · obtain ⟨idx, hle, hdrop⟩ := parse_ok_shape _ _ _ hok
      have hlen : (List.drop idx (cstrBytes cstr)).length = (cstrBytes cstr).length - idx := by
        simp
      rw [hdrop]
      congr 1
      omega
  · intro e herr
    unfold Hand_parse_usi_slice
    rw [herr]
  · intro r hp2 hsome hr
    cases hps : parse_usi_slice (cstrBytes cstr) with
    | panicked =>
      unfold Hand_parse_usi_slice at hsome
      rw [hps] at hsome
      exact Option.noConfusion hsome
    | err e => exact ⟨e, rfl⟩
    | ok p =>
      obtain ⟨rem, hp⟩ := p
      unfold Hand_parse_usi_slice at hsome
      rw [hps] at hsome
      dsimp only at hsome
      cases hsome
      omega

/-- Claim C4 witness: the wrapper theorem applied at the concrete
nul-terminated inputs "P\x00" (success, one byte consumed) and "x\x00"
(failure, -1 returned). -/
theorem C4_wrapper_matches_safe_variant_witness :
    (Hand_parse_usi_slice (Hand.default, Hand.default) [80, 0] =
        some ((((cstrBytes [80, 0]).length - ([] : List Nat).length : Nat) : Int),
          (⟨1, 0, 0, 0, 0, 0, 0⟩, Hand.default))
      ∧ ([] : List Nat) =
          (cstrBytes [80, 0]).drop ((cstrBytes [80, 0]).length - ([] : List Nat).length))
    ∧ Hand_parse_usi_slice (Hand.default, Hand.default) [120, 0] =
        some (-1, (Hand.default, Hand.default)) :=
  ⟨(C4_wrapper_matches_safe_variant [80, 0] (Hand.default, Hand.default)).1 []
      (⟨1, 0, 0, 0, 0, 0, 0⟩, Hand.default) (by decide),
   (C4_wrapper_matches_safe_variant [120, 0] (Hand.default, Hand.default)).2.1
      ⟨0, 1, "A `[Hand; 2]` expected, but no pieces were found"⟩ (by decide)⟩

/-- Claim C8: whenever the safe parser fails on the bytes before the nul,
the wrapper returns the sentinel -1 and the caller's output buffer is
returned unchanged. -/
theorem C8_failure_leaves_buffer (cstr : List Nat) (buf : Hand × Hand) (e : Error)
    (herr : parse_usi_slice (cstrBytes cstr) = .err e) :
    Hand_parse_usi_slice buf cstr = some (-1, buf) := by
  unfold Hand_parse_usi_slice
  rw [herr]

/-- Claim C8 witness: the frame theorem applied at the failing input
"x\x00" with a non-default output buffer, which is returned untouched. -/
theorem C8_failure_leaves_buffer_witness :
    Hand_parse_usi_slice (⟨5, 0, 0, 0, 0, 0, 0⟩, ⟨0, 4, 0, 0, 0, 0, 0⟩) [120, 0] =
      some (-1, (⟨5, 0, 0, 0, 0, 0, 0⟩, ⟨0, 4, 0, 0, 0, 0, 0⟩)) :=
  C8_failure_leaves_buffer [120, 0] (⟨5, 0, 0, 0, 0, 0, 0⟩, ⟨0, 4, 0, 0, 0, 0, 0⟩)
    ⟨0, 1, "A `[Hand; 2]` expected, but no pieces were found"⟩ (by decide)

/-- Claim C5: additions saturate silently — starting from a hand whose
count is within bounds, adding `n` units leaves the count at
`min (count + n) max` (so once the maximum is hit no further unit is
added, and no error or panic arises from the additions themselves) — and
whenever the piece byte of a token decodes, the loop consumes the whole
token (digits plus letter) and continues with the next token, with no side
condition on whether the additions saturated. -/
theorem C5_overflow_capped :
    (∀ (h : Hand) (k : PieceKind) (n : Nat), h.count k ≤ maxCount k →
        (h.addLoop k n).count k = min (h.count k + n) (maxCount k))
    ∧ (∀ (s : List Nat) (hp : Hand × Hand) (k : PieceKind) (col : Color),
        pieceOfByte (s.getD (countOf s).2 0) = some (k, col) →
        (countOf s).2 + 1 ≤ s.length →
        parseLoop s hp =
          match parseLoop (s.drop ((countOf s).2 + 1)) (addUnits hp col k (countOf s).1) with
          | none => none
          | some (m, hp2) => some ((countOf s).2 + 1 + m, hp2)) := by
  refine ⟨?_, parseLoop_step⟩
  intro h k n hle
  rw [Hand.addLoop_count]
  split
  · omega
  · rfl

/-- Claim C5 witness: the capping theorem applied to adding 5 rooks
(maximum 2) to an empty hand, and the token-consumption equation applied to
the input "9R" whose 9 rook additions saturate after 2. -/
theorem C5_overflow_capped_witness :
    (Hand.addLoop Hand.default .Rook 5).count .Rook =
      min (Hand.default.count .Rook + 5) (maxCount .Rook)
    ∧ parseLoop [57, 82] (Hand.default, Hand.default) =
        (match parseLoop (List.drop ((countOf [57, 82]).2 + 1) [57, 82])
            (addUnits (Hand.default, Hand.default) .Black .Rook (countOf [57, 82]).1) with
        | none => none
        | some (m, hp2) => some ((countOf [57, 82]).2 + 1 + m, hp2)) :=
  ⟨C5_overflow_capped.1 Hand.default .Rook 5 (by decide),
   C5_overflow_capped.2 [57, 82] (Hand.default, Hand.default) .Rook .Black
     (by decide) (by decide)⟩

/-- A hand-notation token: an optional count prefix of digit bytes followed
by exactly one piece-letter byte (the spec's atomic unit of hand
notation). -/
structure Token where
  digits : List Nat
  letter : Nat
deriving DecidableEq, Repr

/-- A token is well formed when its prefix consists of at most two ASCII
digit bytes and its letter byte decodes to a piece. -/
def Token.wf (t : Token) : Bool :=
  t.digits.all isDigit && decide (t.digits.length ≤ 2) && (pieceOfByte t.letter).isSome

/-- The count a token denotes: the decimal value of its digit prefix, or 1
when there is none. -/
def Token.count (t : Token) : Nat :=
  match t.digits with
  | [] => 1
  | [d0] => d0 - 48
  | [d0, d1] => 10 * (d0 - 48) + (d1 - 48)
  | _ => 0

/-- The byte rendering of a token. -/
def Token.render (t : Token) : List Nat := t.digits ++ [t.letter]

/-- The byte rendering of a token sequence (concatenation, no
separators). -/
def renderAll : List Token → List Nat
  | [] => []
  | t :: ts => t.render ++ renderAll ts

/-- The effect of one token on the hand pair. -/
def applyTok (hp : Hand × Hand) (t : Token) : Hand × Hand :=
  match pieceOfByte t.letter with
  | none => hp
  | some (k, col) => addUnits hp col k t.count

/-- Unit-adding loops for two tokens commute, also across sides. -/
theorem addUnits_comm (hp : Hand × Hand) (c1 c2 : Color) (k1 k2 : PieceKind) (n1 n2 : Nat) :
    addUnits (addUnits hp c1 k1 n1) c2 k2 n2 = addUnits (addUnits hp c2 k2 n2) c1 k1 n1 := by
  cases c1 <;> cases c2 <;> simp [addUnits, Hand.addLoop_comm]

/-- Applying two tokens in either order gives the same hand pair. -/
theorem applyTok_rcomm (hp : Hand × Hand) (t1 t2 : Token) :
    applyTok (applyTok hp t1) t2 = applyTok (applyTok hp t2) t1 := by
  unfold applyTok
  cases h1 : pieceOfByte t1.letter with
  | none =>
    cases h2 : pieceOfByte t2.letter with
    | none => rfl
    | some p2 => rfl
  | some p1 =>
    obtain ⟨k1, c1⟩ := p1
    cases h2 : pieceOfByte t2.letter with
    | none => rfl
    | some p2 =>
      obtain ⟨k2, c2⟩ := p2
      exact addUnits_comm hp c1 c2 k1 k2 _ _

/-- Folding tokens over a hand pair is invariant under permutation of the
token list. -/
theorem foldl_applyTok_perm {ts1 ts2 : List Token} (p : ts1.Perm ts2) :
    ∀ hp : Hand × Hand, ts1.foldl applyTok hp = ts2.foldl applyTok hp := by
  induction p with
  | nil => intro hp; rfl
  | cons x p ih =>
    intro hp
    simp only [List.foldl_cons]
    exact ih _
  | swap x y l =>
    intro hp
    simp only [List.foldl_cons]
    rw [applyTok_rcomm]
  | trans p q ih1 ih2 =>
    intro hp
    rw [ih1, ih2]

/-- The rendering of a non-empty token list is non-empty. -/
theorem renderAll_ne_nil (t : Token) (ts : List Token) : renderAll (t :: ts) ≠ [] := by
  simp [renderAll, Token.render]

/-- The token loop on a rendered sequence of well-formed tokens consumes
everything and folds the tokens over the initial hand pair. -/
theorem parseLoop_tokens (ts : List Token) (hp : Hand × Hand)
    (hwf : ∀ t ∈ ts, t.wf = true) :
    parseLoop (renderAll ts) hp = some ((renderAll ts).length, ts.foldl applyTok hp) := by
  induction ts generalizing hp with
  | nil => rfl
  | cons t ts ih =>
    have hwt : t.wf = true := hwf t (by simp)
    have hwts : ∀ u ∈ ts, u.wf = true := fun u hu => hwf u (by simp [hu])
    have hwt3 := hwt
    simp only [Token.wf, Bool.and_eq_true, List.all_eq_true, decide_eq_true_eq,
      Option.isSome_iff_exists] at hwt3
    obtain ⟨⟨hdig, hlen2⟩, p, hdec0⟩ := hwt3
    obtain ⟨k, col⟩ := p
    have hldig := (pieceOfByte_byte_facts hdec0).1
    rcases hd : t.digits with _ | ⟨d0, _ | ⟨d1, _ | ⟨d2, dr⟩⟩⟩
    · have hr : renderAll (t :: ts) = t.letter :: renderAll ts := by
        simp [renderAll, Token.render, hd]
      rw [hr, parseLoop.eq_def]
      try dsimp only
      rw [if_neg (by simp [hldig])]
      try dsimp only
      rw [hdec0]
      try dsimp only
      rw [ih _ hwts]
      try dsimp only
      have happ : applyTok hp t = addUnits hp col k 1 := by
        simp [applyTok, hdec0, Token.count, hd]
      rw [List.foldl_cons, happ]
      simp only [Option.some.injEq, Prod.mk.injEq, List.length_cons]
      exact ⟨by omega, trivial⟩
    · rw [hd] at hdig
      have hr : renderAll (t :: ts) = d0 :: t.letter :: renderAll ts := by
        simp [renderAll, Token.render, hd]
      rw [hr, parseLoop.eq_def]
      try dsimp only
      rw [if_pos (hdig d0 (by simp))]
      try dsimp only
      rw [if_neg (by simp [hldig])]
      try dsimp only
      rw [hdec0]
      try dsimp only
      rw [ih _ hwts]
      try dsimp only
      have happ : applyTok hp t = addUnits hp col k (d0 - 48) := by
        simp [applyTok, hdec0, Token.count, hd]
      rw [List.foldl_cons, happ]
      simp only [Option.some.injEq, Prod.mk.injEq, List.length_cons]
      exact ⟨by omega, trivial⟩
    · rw [hd] at hdig
      have hr : renderAll (t :: ts) = d0 :: d1 :: t.letter :: renderAll ts := by
        simp [renderAll, Token.render, hd]
      rw [hr, parseLoop.eq_def]
      try dsimp only
      rw [if_pos (hdig d0 (by simp))]
      try dsimp only
      rw [if_pos (hdig d1 (by simp))]
      try dsimp only
      rw [hdec0]
      try dsimp only
      rw [ih _ hwts]
      try dsimp only
      have happ : applyTok hp t = addUnits hp col k (10 * (d0 - 48) + (d1 - 48)) := by
        simp [applyTok, hdec0, Token.count, hd]
      rw [List.foldl_cons, happ]
      simp only [Option.some.injEq, Prod.mk.injEq, List.length_cons]
      exact ⟨by omega, trivial⟩
    · rw [hd] at hlen2
      simp at hlen2

/-- Parsing the rendering of a non-empty well-formed token sequence
succeeds, consuming everything and folding the tokens over two empty
hands. -/
theorem parse_tokens (ts : List Token) (hne : ts ≠ [])
    (hwf : ∀ t ∈ ts, t.wf = true) :
    parse_usi_slice (renderAll ts) =
      .ok ([], ts.foldl applyTok (Hand.default, Hand.default)) := by
  obtain ⟨t, ts', rfl⟩ : ∃ t ts', ts = t :: ts' := by
    cases ts with
    | nil => exact absurd rfl hne
    | cons t ts' => exact ⟨t, ts', rfl⟩
  have hwt : t.wf = true := hwf t (by simp)
  have hwt3 := hwt
  simp only [Token.wf, Bool.and_eq_true, List.all_eq_true, decide_eq_true_eq,
    Option.isSome_iff_exists] at hwt3
  obtain ⟨⟨hdig, hlen2⟩, p, hdec0⟩ := hwt3
  have hldig := pieceOfByte_byte_facts hdec0
  have hhead : ∃ b rest, renderAll (t :: ts') = b :: rest ∧ b ≠ 45 := by
    rcases hd : t.digits with _ | ⟨d0, dr⟩
    · refine ⟨t.letter, renderAll ts', ?_, hldig.2⟩
      simp [renderAll, Token.render, hd]
    · have hd0 : isDigit d0 = true := by
        rw [hd] at hdig
        exact hdig d0 (by simp)
      have : d0 ≠ 45 := by
        simp only [isDigit, decide_eq_true_eq] at hd0
        omega
      exact ⟨d0, dr ++ [t.letter] ++ renderAll ts', by simp [renderAll, Token.render, hd], this⟩
  obtain ⟨b, rest, hshape, hb45⟩ := hhead
  have hloop := parseLoop_tokens (t :: ts') (Hand.default, Hand.default) hwf
  have hlenpos : (renderAll (t :: ts')).length ≠ 0 := by
    rw [hshape]
    simp
  rw [hshape, parse_usi_slice.eq_def]
  dsimp only
  rw [if_neg hb45]
  rw [← hshape, hloop]
  dsimp only
  rw [if_neg hlenpos]
  rw [List.drop_length]

/-- Claim C7: accumulation of tokens is commutative — for inputs that are
concatenations of well-formed piece tokens, any permutation of the tokens
parses to the same result (in particular the same final hand pair), and
concretely "PNSP" and "PPNS" parse to the same final counts. -/
theorem C7_token_order_irrelevant :
    (∀ ts1 ts2 : List Token, (∀ t ∈ ts1, t.wf = true) → ts1.Perm ts2 →
        parse_usi_slice (renderAll ts1) = parse_usi_slice (renderAll ts2))
    ∧ parse_usi_slice [80, 78, 83, 80] = parse_usi_slice [80, 80, 78, 83] := by
  constructor
  · intro ts1 ts2 hwf hperm
    by_cases hne : ts1 = []
    · subst hne
      have : ts2 = [] := hperm.symm.eq_nil
      rw [this]
    · have hne2 : ts2 ≠ [] := by
        intro h
        subst h
        have := hperm.length_eq
        simp at this
        exact hne this
      have hwf2 : ∀ t ∈ ts2, t.wf = true := fun t ht => hwf t (hperm.symm.subset ht)
      rw [parse_tokens ts1 hne hwf, parse_tokens ts2 hne2 hwf2,
        foldl_applyTok_perm hperm]
  · decide

/-- Claim C7 witness: the permutation theorem applied to the token lists of
"PNSP" and "PPNS". -/
theorem C7_token_order_irrelevant_witness :
    parse_usi_slice (renderAll [⟨[], 80⟩, ⟨[], 78⟩, ⟨[], 83⟩, ⟨[], 80⟩]) =
      parse_usi_slice (renderAll [⟨[], 80⟩, ⟨[], 80⟩, ⟨[], 78⟩, ⟨[], 83⟩]) :=
  C7_token_order_irrelevant.1 _ _ (by decide) (by decide)
